import Mathlib

/-!
Verification of the truth-table simulation procedure of the SyReC editor
(`SyReCEditor.sim` in `src/mqt/syrec/syrec_editor.py`).

The Python function is shallowly embedded below:
  * `inferAncillaValues` is the leading-gate scan that infers the constant
    initial values of the ancilla qubits (the `for quantum_operation_index`
    loop guarded by `n_ancilla_qubits > 0`);
  * `enumDataStates` is `itertools.product([False, True], repeat=n)` followed
    by `list(reversed(...))` applied to each tuple;
  * `simLoop` / `sim` is the per-state simulation loop: per enumerated data
    state the oracle `quantum_computation_simulation_for_state` is called with
    the data-qubit state (`reversed_input_state`); on `None` the whole build
    stops with an error naming that state, otherwise the input row is the data
    state with the inferred ancilla constants appended and the output row is
    the oracle result with the same ancilla constants appended (the slice
    assignments `[:n_data_qubits]` / `[n_data_qubits:]` on rows preallocated
    at width `num_qubits`);
  * `simUI` is the surrounding widget update: the table widget is cleared and
    repopulated only after the whole loop succeeded, and is left untouched on
    the early error return.
-/

namespace Syrec

/-- Gate type tag (`OpType`): the scan only distinguishes `x`; every other
tag behaves alike, so the remaining tags are collapsed into two others. -/
inductive OpType where
  | x
  | swap
  | other
deriving DecidableEq

/-- One quantum operation, mirroring the `type_`, `controls` and `targets`
accessors used by `sim`. -/
structure QuantumOperation where
  type_ : OpType
  controls : List Nat
  targets : List Nat
deriving DecidableEq

/-- The circuit handle: qubit counts, the ordered gate list (`num_ops` is its
length), and the display metadata read by the table rendering. -/
structure QuantumComputation where
  num_qubits : Nat
  num_data_qubits : Nat
  ops : List QuantumOperation
  qubit_labels : List String
  garbage : List Bool
deriving DecidableEq

/-- Derived count: `num_ancilla_qubits = num_qubits - num_data_qubits`
(ancilla qubits form the suffix of the qubit indices). -/
def QuantumComputation.num_ancilla_qubits (c : QuantumComputation) : Nat :=
  c.num_qubits - c.num_data_qubits

/-- The set `ancilla_qubit_indices`, built in the source as
`{ancillary_qubit_index + i | i < n_ancilla_qubits}` with
`ancillary_qubit_index = n_data_qubits`. -/
def ancillaQubitIndices (c : QuantumComputation) : Finset Nat :=
  (Finset.range c.num_ancilla_qubits).image (fun i => c.num_data_qubits + i)

/-- The scan-continuation condition of the inference loop: the gate is an X
gate, has no controls, exactly one target, and that target is an ancilla
index (the negation of the `break` condition in the source). -/
def isAncillaInit (c : QuantumComputation) (g : QuantumOperation) : Bool :=
  g.type_ == OpType.x && g.controls.length == 0 && g.targets.length == 1 &&
    decide (g.targets.headD 0 ∈ ancillaQubitIndices c)

/-- `a[i] = not a[i]` on a boolean list. -/
def toggleAt (a : List Bool) (i : Nat) : List Bool :=
  a.set i (!a.getD i false)

/-- One accepted gate of the scan toggles the entry
`targets[0] - ancillary_qubit_index`. -/
def toggleStep (c : QuantumComputation) (a : List Bool) (g : QuantumOperation) :
    List Bool :=
  toggleAt a (g.targets.headD 0 - c.num_data_qubits)

/-- The gate scan: walk the gate list in order, toggling while the gate
qualifies, and stop at the first gate that does not. -/
def inferScan (c : QuantumComputation) :
    List QuantumOperation → List Bool → List Bool
  | [], a => a
  | g :: gs, a =>
    if isAncillaInit c g then inferScan c gs (toggleStep c a g) else a

/-- `ancilla_qubit_values`: all-`False` of length `n_ancilla_qubits`; the gate
scan runs only under the `n_ancilla_qubits > 0` guard. -/
def inferAncillaValues (c : QuantumComputation) : List Bool :=
  if 0 < c.num_ancilla_qubits then
    inferScan c c.ops (List.replicate c.num_ancilla_qubits false)
  else
    List.replicate c.num_ancilla_qubits false

/-- `itertools.product([False, True], repeat=n)`: all {false,true}-tuples of
length `n`, first position varying slowest, `false` before `true`. -/
def productFT : Nat → List (List Bool)
  | 0 => [[]]
  | n + 1 => (productFT n).map (List.cons false) ++ (productFT n).map (List.cons true)

/-- The enumerated data-qubit states: each product tuple reversed
(`reversed_input_state`), so that index 0 is the least significant qubit. -/
def enumDataStates (c : QuantumComputation) : List (List Bool) :=
  (productFT c.num_data_qubits).map List.reverse

/-- The full enumerated input states: data-qubit state with the inferred
ancilla constants appended (`input_state_combinations[index]` after the two
slice assignments). -/
def enumInputStates (c : QuantumComputation) : List (List Bool) :=
  (enumDataStates c).map (fun s => s ++ inferAncillaValues c)

/-- The single-state simulation oracle
(`syrec.quantum_computation_simulation_for_state`, with the opaque settings
argument dropped): a data-qubit state in, a data-qubit state or failure out. -/
abbrev Oracle := List Bool → Option (List Bool)

/-- One row of the truth table: full-width input and output bit lists. -/
structure SimRow where
  input : List Bool
  output : List Bool
deriving DecidableEq

/-- The simulation error shown on oracle failure; it carries the
`reversed_input_state` interpolated into the message text. -/
structure SimError where
  input_state : List Bool
deriving DecidableEq

/-- The per-state simulation loop over the enumerated data states: on the
first oracle failure the whole build stops with an error naming that state
(the early `return`); otherwise each row pairs the data state and the oracle
output, both with the ancilla constants `a` appended. -/
def simLoop (o : Oracle) (a : List Bool) :
    List (List Bool) → Except SimError (List SimRow)
  | [] => Except.ok []
  | s :: rest =>
    match o s with
    | none => Except.error ⟨s⟩
    | some out =>
      match simLoop o a rest with
      | Except.error e => Except.error e
      | Except.ok rows => Except.ok ({ input := s ++ a, output := out ++ a } :: rows)

/-- The table build: infer the ancilla constants, enumerate the data states,
simulate each in order. -/
def sim (c : QuantumComputation) (o : Oracle) : Except SimError (List SimRow) :=
  simLoop o (inferAncillaValues c) (enumDataStates c)

/-- The sequence of data states actually passed to the oracle, in call order:
the loop stops right after the first failing call. -/
def simQueries (o : Oracle) : List (List Bool) → List (List Bool)
  | [] => []
  | s :: rest =>
    match o s with
    | none => [s]
    | some _ => s :: simQueries o rest

/-- The oracle invocations made by `sim c o`. -/
def oracleQueries (c : QuantumComputation) (o : Oracle) : List (List Bool) :=
  simQueries o (enumDataStates c)

/-- Numeric value of a bit list with index 0 as the least significant bit. -/
def bitsVal : List Bool → Nat
  | [] => 0
  | b :: t => (if b then 1 else 0) + 2 * bitsVal t

/-- The `n`-bit binary representation of `k`, least significant bit first. -/
def natToBits : Nat → Nat → List Bool
  | 0, _ => []
  | n + 1, k => (k % 2 == 1) :: natToBits n (k / 2)

/-- Stringified qubit value put into a table cell. -/
def bitCell (b : Bool) : String :=
  if b then "1" else "0"

/-- The presented state of the result-table widget. -/
structure TableState where
  rowCount : Nat
  colCount : Nat
  cells : List (List String)
deriving DecidableEq

/-- The label row of the table: input columns show the qubit labels, output
columns show the label or `"garbage"` per the garbage flag. -/
def qubitLabelCells (c : QuantumComputation) : List String :=
  ((List.range c.num_qubits).map (fun i => c.qubit_labels.getD i "")) ++
    ((List.range c.num_qubits).map (fun i =>
      if c.garbage.getD i false then "garbage" else c.qubit_labels.getD i ""))

/-- One displayed value row: stringified input bits then output bits. -/
def renderRow (r : SimRow) : List String :=
  r.input.map bitCell ++ r.output.map bitCell

/-- The repopulated table: the INPUTS/OUTPUTS header row, the label row, then
one value row per simulated state, `2 * num_qubits` columns. -/
def renderTable (c : QuantumComputation) (rows : List SimRow) : TableState :=
  { rowCount := rows.length + 2
    colCount := 2 * c.num_qubits
    cells := ["INPUTS", "OUTPUTS"] :: qubitLabelCells c :: rows.map renderRow }

/-- The widget effect of `sim`: on a simulation failure the function returns
before touching the table, so the previous table state is kept; on success
the table is cleared and repopulated from the computed rows. -/
def simUI (c : QuantumComputation) (o : Oracle) (t : TableState) : TableState :=
  match sim c o with
  | Except.error _ => t
  | Except.ok rows => renderTable c rows

/-- Concrete circuit: two data qubits, no ancilla, no gates. -/
def circNoAncilla : QuantumComputation :=
  { num_qubits := 2
    num_data_qubits := 2
    ops := []
    qubit_labels := ["a", "b"]
    garbage := [false, false] }

/-- Concrete circuit: one data qubit, one ancilla qubit, no gates, so the
inferred ancilla constant stays `false`. -/
def circOneAncilla : QuantumComputation :=
  { num_qubits := 2
    num_data_qubits := 1
    ops := []
    qubit_labels := ["a", "anc"]
    garbage := [false, false] }

/-- An uncontrolled X gate on qubit 1. -/
def gateXOne : QuantumOperation :=
  { type_ := OpType.x, controls := [], targets := [1] }

/-- Concrete circuit: one data qubit, one ancilla qubit, one leading X gate on
the ancilla qubit, so the inferred ancilla constant is `true`. -/
def circAncillaTrue : QuantumComputation :=
  { num_qubits := 2
    num_data_qubits := 1
    ops := [gateXOne]
    qubit_labels := ["a", "anc"]
    garbage := [false, false] }

/-- Oracle returning its input unchanged (identity circuit behaviour). -/
def oracleId : Oracle := fun s => some s

/-- Oracle returning the fixed state `[false, false]`. -/
def oracleConstFF : Oracle := fun _ => some [false, false]

/-- Oracle extensionally equal to `oracleConstFF` on all length-2 states but
written differently. -/
def oracleConstFF2 : Oracle := fun s => if s.length = 2 then some [false, false] else none

/-- Oracle failing exactly on the state `[false, true]`, the third state
enumerated for two data qubits. -/
def oracleFailThird : Oracle := fun s => if s = [false, true] then none else some s

/-- A nonempty previous table state, used to observe that a failing build
leaves the widget untouched. -/
def staleTable : TableState :=
  { rowCount := 7, colCount := 3, cells := [["stale"]] }

/-- The table rows produced for `circNoAncilla` under `oracleConstFF`. -/
def rowsFF : List SimRow :=
  [{ input := [false, false], output := [false, false] },
   { input := [true, false], output := [false, false] },
   { input := [false, true], output := [false, false] },
   { input := [true, true], output := [false, false] }]

/-- The table rows produced for `circOneAncilla` under `oracleId`. -/
def rowsOneAncilla : List SimRow :=
  [{ input := [false, false], output := [false, false] },
   { input := [true, false], output := [true, false] }]

theorem productFT_length (n : Nat) : (productFT n).length = 2 ^ n := by
  induction n with
  | zero => rfl
  | succ n ih =>
    simp only [productFT, List.length_append, List.length_map, ih]
    rw [pow_succ]
    ring

theorem productFT_mem_length (n : Nat) : ∀ s ∈ productFT n, s.length = n := by
  induction n with
  | zero =>
    intro s hs
    simp only [productFT, List.mem_singleton] at hs
    simp [hs]
  | succ n ih =>
    intro s hs
    simp only [productFT, List.mem_append, List.mem_map] at hs
    rcases hs with ⟨t, ht, rfl⟩ | ⟨t, ht, rfl⟩ <;> simp [ih t ht]

theorem natToBits_length (n : Nat) : ∀ k, (natToBits n k).length = n := by
  induction n with
  | zero => intro k; rfl
  | succ n ih => intro k; simp [natToBits, ih]

theorem natToBits_append_false (n : Nat) :
    ∀ k, k < 2 ^ n → natToBits (n + 1) k = natToBits n k ++ [false] := by
  induction n with
  | zero =>
    intro k hk
    norm_num at hk
    subst hk
    rfl
  | succ n ih =>
    intro k hk
    have h2 : (2 : Nat) ^ (n + 1) = 2 * 2 ^ n := by ring
    have hdiv : k / 2 < 2 ^ n := by omega
    show (k % 2 == 1) :: natToBits (n + 1) (k / 2) =
      ((k % 2 == 1) :: natToBits n (k / 2)) ++ [false]
    rw [ih (k / 2) hdiv]
    rfl

theorem natToBits_append_true (n : Nat) :
    ∀ k, k < 2 ^ n → natToBits (n + 1) (2 ^ n + k) = natToBits n k ++ [true] := by
  induction n with
  | zero =>
    intro k hk
    norm_num at hk
    subst hk
    rfl
  | succ n ih =>
    intro k hk
    have h2 : (2 : Nat) ^ (n + 1) = 2 * 2 ^ n := by ring
    have hm : (2 ^ (n + 1) + k) % 2 = k % 2 := by omega
    have hd : (2 ^ (n + 1) + k) / 2 = 2 ^ n + k / 2 := by omega
    have hdiv : k / 2 < 2 ^ n := by omega
    show ((2 ^ (n + 1) + k) % 2 == 1) :: natToBits (n + 1) ((2 ^ (n + 1) + k) / 2) =
      ((k % 2 == 1) :: natToBits n (k / 2)) ++ [true]
    rw [hm, hd, ih (k / 2) hdiv]
    rfl

theorem productFT_reverse (n : Nat) :
    (productFT n).map List.reverse = (List.range (2 ^ n)).map (natToBits n) := by
  induction n with
  | zero => rfl
  | succ n ih =>
    have h2 : (2 : Nat) ^ (n + 1) = 2 ^ n + 2 ^ n := by ring
    calc (productFT (n + 1)).map List.reverse
        = ((productFT n).map List.reverse).map (fun t => t ++ [false]) ++
          ((productFT n).map List.reverse).map (fun t => t ++ [true]) := by
          simp [productFT, List.map_map, Function.comp_def, List.reverse_cons]
      _ = ((List.range (2 ^ n)).map (natToBits n)).map (fun t => t ++ [false]) ++
          ((List.range (2 ^ n)).map (natToBits n)).map (fun t => t ++ [true]) := by
          rw [ih]
      _ = (List.range (2 ^ n)).map (natToBits (n + 1)) ++
          (List.range (2 ^ n)).map (fun k => natToBits (n + 1) (2 ^ n + k)) := by
          rw [List.map_map, List.map_map]
          congr 1
          · exact List.map_congr_left fun k hk =>
              (natToBits_append_false n k (List.mem_range.mp hk)).symm
          · exact List.map_congr_left fun k hk =>
              (natToBits_append_true n k (List.mem_range.mp hk)).symm
      _ = (List.range (2 ^ (n + 1))).map (natToBits (n + 1)) := by
          rw [h2, List.range_add, List.map_append, List.map_map]
          rfl

theorem bitsVal_append (u v : List Bool) :
    bitsVal (u ++ v) = bitsVal u + 2 ^ u.length * bitsVal v := by
  induction u with
  | nil => simp [bitsVal]
  | cons b t ih =>
    have hunf : bitsVal ((b :: t) ++ v) = (if b then 1 else 0) + 2 * bitsVal (t ++ v) := rfl
    rw [hunf, ih, List.length_cons, pow_succ, bitsVal]
    ring

theorem mod_double (k m : Nat) : k % 2 + 2 * (k / 2 % m) = k % (2 * m) := by
  have h1 := Nat.mod_add_div k 2
  have h2 := Nat.mod_add_div (k / 2) m
  have h3 := Nat.mod_add_div k (2 * m)
  have h4 : k / (2 * m) = k / 2 / m := (Nat.div_div_eq_div_mul k 2 m).symm
  rw [h4] at h3
  have h5 : 2 * m * (k / 2 / m) = 2 * (m * (k / 2 / m)) := by ring
  rw [h5] at h3
  generalize hP : m * (k / 2 / m) = P at h2 h3
  generalize hR : k / 2 % m = R at h2 ⊢
  generalize hS : k % (2 * m) = S at h3 ⊢
  omega

theorem bitsVal_natToBits (n : Nat) : ∀ k, bitsVal (natToBits n k) = k % 2 ^ n := by
  induction n with
  | zero => intro k; simp [natToBits, bitsVal, Nat.mod_one]
  | succ n ih =>
    intro k
    have h2 : (2 : Nat) ^ (n + 1) = 2 * 2 ^ n := by ring
    have hb : (if (k % 2 == 1) = true then 1 else 0) = k % 2 := by
      rcases Nat.mod_two_eq_zero_or_one k with h0 | h0 <;> simp [h0]
    simp only [natToBits, bitsVal, hb, ih, h2]
    exact mod_double k (2 ^ n)

theorem bitsVal_natToBits_of_lt (n k : Nat) (hk : k < 2 ^ n) :
    bitsVal (natToBits n k) = k := by
  rw [bitsVal_natToBits, Nat.mod_eq_of_lt hk]

theorem natToBits_getD (n : Nat) :
    ∀ k i, i < n → (natToBits n k).getD i false = (k / 2 ^ i % 2 == 1) := by
  induction n with
  | zero => intro k i h; exact absurd h (Nat.not_lt_zero i)
  | succ n ih =>
    intro k i h
    cases i with
    | zero => simp [natToBits]
    | succ i =>
      have hi : i < n := by omega
      have hd : k / 2 / 2 ^ i = k / 2 ^ (i + 1) := by
        rw [Nat.div_div_eq_div_mul]
        congr 1
        ring
      simp only [natToBits, List.getD_cons_succ]
      rw [ih (k / 2) i hi, hd]

theorem enumDataStates_eq (c : QuantumComputation) :
    enumDataStates c =
      (List.range (2 ^ c.num_data_qubits)).map (natToBits c.num_data_qubits) :=
  productFT_reverse c.num_data_qubits

theorem enumDataStates_length (c : QuantumComputation) :
    (enumDataStates c).length = 2 ^ c.num_data_qubits := by
  rw [enumDataStates_eq]
  simp

theorem enumDataStates_mem_length (c : QuantumComputation) :
    ∀ s ∈ enumDataStates c, s.length = c.num_data_qubits := by
  intro s hs
  simp only [enumDataStates, List.mem_map] at hs
  obtain ⟨t, ht, rfl⟩ := hs
  simp [productFT_mem_length _ t ht]

theorem enumInputStates_eq (c : QuantumComputation) :
    enumInputStates c =
      (List.range (2 ^ c.num_data_qubits)).map
        (fun k => natToBits c.num_data_qubits k ++ inferAncillaValues c) := by
  rw [enumInputStates, enumDataStates_eq, List.map_map]
  rfl

theorem simLoop_ok_eq (o : Oracle) (a : List Bool) :
    ∀ l rows, simLoop o a l = Except.ok rows →
      rows = l.map (fun s => { input := s ++ a, output := (o s).getD [] ++ a }) := by
  intro l
  induction l with
  | nil =>
    intro rows h
    simp only [simLoop, Except.ok.injEq] at h
    simp [← h]
  | cons s rest ih =>
    intro rows h
    cases ho : o s with
    | none =>
      simp only [simLoop, ho] at h
      exact Except.noConfusion h
    | some out =>
      cases hr : simLoop o a rest with
      | error e =>
        simp only [simLoop, ho, hr] at h
        exact Except.noConfusion h
      | ok rs =>
        simp only [simLoop, ho, hr, Except.ok.injEq] at h
        rw [← h, List.map_cons, ih rs hr, ho]
        rfl

theorem simLoop_ok_isSome (o : Oracle) (a : List Bool) :
    ∀ l rows, simLoop o a l = Except.ok rows → ∀ s ∈ l, (o s).isSome := by
  intro l
  induction l with
  | nil => intro rows _ s hs; exact absurd hs (List.not_mem_nil s)
  | cons x rest ih =>
    intro rows h s hs
    cases ho : o x with
    | none =>
      simp only [simLoop, ho] at h
      exact Except.noConfusion h
    | some out =>
      cases hr : simLoop o a rest with
      | error e =>
        simp only [simLoop, ho, hr] at h
        exact Except.noConfusion h
      | ok rs =>
        rcases List.mem_cons.mp hs with rfl | hmem
        · simp [ho]
        · exact ih rs hr s hmem

theorem simQueries_eq_self (o : Oracle) :
    ∀ l, (∀ s ∈ l, (o s).isSome) → simQueries o l = l := by
  intro l
  induction l with
  | nil => intro _; rfl
  | cons x rest ih =>
    intro h
    have hx := h x (List.mem_cons_self x rest)
    cases ho : o x with
    | none => rw [ho] at hx; exact absurd hx (by simp)
    | some out =>
      simp only [simQueries, ho]
      rw [ih fun s hs => h s (List.mem_cons_of_mem x hs)]

theorem simLoop_first_fail (o : Oracle) (a s : List Bool) (post : List (List Bool)) :
    ∀ pre, (∀ x ∈ pre, (o x).isSome) → o s = none →
      simLoop o a (pre ++ s :: post) = Except.error ⟨s⟩ ∧
        simQueries o (pre ++ s :: post) = pre ++ [s] := by
  intro pre
  induction pre with
  | nil =>
    intro _ hs
    constructor
    · simp only [List.nil_append, simLoop, hs]
    · simp only [List.nil_append, simQueries, hs]
  | cons x pre ih =>
    intro hp hs
    have hx := hp x (List.mem_cons_self x pre)
    cases ho : o x with
    | none => rw [ho] at hx; exact absurd hx (by simp)
    | some out =>
      have hih := ih (fun y hy => hp y (List.mem_cons_of_mem x hy)) hs
      constructor
      · simp only [List.cons_append, simLoop, ho, List.append_eq, hih.1]
      · simp only [List.cons_append, simQueries, ho, List.append_eq, hih.2]

theorem simLoop_error_of_fail (o : Oracle) (a : List Bool) :
    ∀ l, (∃ s ∈ l, o s = none) → ∃ e, simLoop o a l = Except.error e := by
  intro l
  induction l with
  | nil => rintro ⟨s, hs, _⟩; exact absurd hs (List.not_mem_nil s)
  | cons x rest ih =>
    rintro ⟨s, hs, hfail⟩
    cases ho : o x with
    | none => exact ⟨⟨x⟩, by simp only [simLoop, ho]⟩
    | some out =>
      rcases List.mem_cons.mp hs with rfl | hmem
      · rw [ho] at hfail; exact absurd hfail (by simp)
      · obtain ⟨e, he⟩ := ih ⟨s, hmem, hfail⟩
        exact ⟨e, by simp only [simLoop, ho, he]⟩

theorem simLoop_congr (a : List Bool) :
    ∀ l (o₁ o₂ : Oracle), (∀ s ∈ l, o₁ s = o₂ s) →
      simLoop o₁ a l = simLoop o₂ a l := by
  intro l
  induction l with
  | nil => intro o₁ o₂ _; rfl
  | cons x rest ih =>
    intro o₁ o₂ h
    have hx := h x (List.mem_cons_self x rest)
    have hrest := ih o₁ o₂ fun s hs => h s (List.mem_cons_of_mem x hs)
    simp only [simLoop, hx, hrest]

theorem simQueries_subset (o : Oracle) :
    ∀ l q, q ∈ simQueries o l → q ∈ l := by
  intro l
  induction l with
  | nil => intro q hq; exact absurd hq (List.not_mem_nil q)
  | cons x rest ih =>
    intro q hq
    cases ho : o x with
    | none =>
      simp only [simQueries, ho, List.mem_singleton] at hq
      simp [hq]
    | some out =>
      simp only [simQueries, ho, List.mem_cons] at hq
      rcases hq with rfl | hq
      · exact List.mem_cons_self q rest
      · exact List.mem_cons_of_mem x (ih q hq)

theorem mem_ancillaQubitIndices (c : QuantumComputation) (t : Nat) :
    t ∈ ancillaQubitIndices c ↔
      c.num_data_qubits ≤ t ∧ t < c.num_data_qubits + c.num_ancilla_qubits := by
  simp only [ancillaQubitIndices, Finset.mem_image, Finset.mem_range]
  constructor
  · rintro ⟨i, hi, rfl⟩
    omega
  · rintro ⟨h1, h2⟩
    exact ⟨t - c.num_data_qubits, by omega, by omega⟩

theorem inferScan_eq_foldl (c : QuantumComputation) :
    ∀ gs a, inferScan c gs a =
      (gs.takeWhile (isAncillaInit c)).foldl (toggleStep c) a := by
  intro gs
  induction gs with
  | nil => intro a; rfl
  | cons g gs ih =>
    intro a
    by_cases h : isAncillaInit c g = true
    · simp only [inferScan, h, if_true, List.takeWhile_cons, List.foldl_cons, ih]
    · simp only [inferScan, h, if_false, List.takeWhile_cons]
      rw [if_neg (by simp [h])]
      rfl

theorem toggleAt_length (a : List Bool) (i : Nat) :
    (toggleAt a i).length = a.length :=
  List.length_set a i _

theorem inferScan_length (c : QuantumComputation) :
    ∀ gs a, (inferScan c gs a).length = a.length := by
  intro gs
  induction gs with
  | nil => intro a; rfl
  | cons g gs ih =>
    intro a
    by_cases h : isAncillaInit c g = true
    · simp only [inferScan, h, if_true, ih, toggleStep, toggleAt_length]
    · simp [inferScan, h]

theorem inferAncillaValues_length (c : QuantumComputation) :
    (inferAncillaValues c).length = c.num_ancilla_qubits := by
  unfold inferAncillaValues
  split
  · rw [inferScan_length, List.length_replicate]
  · rw [List.length_replicate]

theorem getD_set_self {α : Type} (l : List α) (i : Nat) (x d : α) (h : i < l.length) :
    (l.set i x).getD i d = x := by
  rw [List.getD_eq_getElem?_getD, List.getElem?_set_self h]
  rfl

theorem getD_set_ne {α : Type} (l : List α) (i j : Nat) (x d : α) (hij : i ≠ j) :
    (l.set i x).getD j d = l.getD j d := by
  rw [List.getD_eq_getElem?_getD, List.getElem?_set_ne hij, ← List.getD_eq_getElem?_getD]

theorem set_getD_self {α : Type} :
    ∀ (l : List α) (i : Nat) (d : α), i < l.length → l.set i (l.getD i d) = l := by
  intro l
  induction l with
  | nil => intro i d h; simp at h
  | cons x t ih =>
    intro i d h
    cases i with
    | zero => rfl
    | succ i =>
      have hi : i < t.length := by simpa using h
      simp only [List.set_cons_succ, List.getD_cons_succ, ih i d hi]

theorem toggleAt_getD_self (a : List Bool) (i : Nat) (h : i < a.length) :
    (toggleAt a i).getD i false = !(a.getD i false) :=
  getD_set_self a i _ false h

theorem toggleAt_getD_ne (a : List Bool) (i j : Nat) (hij : i ≠ j) :
    (toggleAt a i).getD j false = a.getD j false :=
  getD_set_ne a i j _ false hij

theorem toggleAt_toggleAt (a : List Bool) (i : Nat) (h : i < a.length) :
    toggleAt (toggleAt a i) i = a := by
  unfold toggleAt
  rw [getD_set_self a i _ false h, List.set_set, Bool.not_not]
  exact set_getD_self a i false h

theorem isAncillaInit_iff (c : QuantumComputation) (g : QuantumOperation) :
    isAncillaInit c g = true ↔
      g.type_ = OpType.x ∧ g.controls = [] ∧
        ∃ t, g.targets = [t] ∧ c.num_data_qubits ≤ t ∧
          t < c.num_data_qubits + c.num_ancilla_qubits := by
  unfold isAncillaInit
  simp only [Bool.and_eq_true, beq_iff_eq, decide_eq_true_eq, mem_ancillaQubitIndices]
  constructor
  · rintro ⟨⟨⟨hx, hc⟩, ht⟩, hr⟩
    obtain ⟨t, htt⟩ := List.length_eq_one.mp ht
    rw [htt] at hr
    exact ⟨hx, List.length_eq_zero.mp hc, t, htt, by simpa using hr⟩
  · rintro ⟨hx, hc, t, htt, h1, h2⟩
    refine ⟨⟨⟨hx, by simp [hc]⟩, by simp [htt]⟩, ?_⟩
    rw [htt]
    simpa using ⟨h1, h2⟩

theorem sim_ok_inputs (c : QuantumComputation) (o : Oracle) (rows : List SimRow)
    (hok : sim c o = Except.ok rows) :
    rows.map SimRow.input = enumInputStates c := by
  have hrows := simLoop_ok_eq o _ _ rows hok
  subst hrows
  rw [List.map_map]
  exact List.map_congr_left fun s _ => rfl

theorem enumInputStates_pairwise (c : QuantumComputation) :
    (enumInputStates c).Pairwise (fun u v => bitsVal u < bitsVal v) := by
  rw [enumInputStates_eq, List.pairwise_map]
  refine List.Pairwise.imp_of_mem ?_ (List.pairwise_lt_range _)
  intro i j hi hj hij
  rw [bitsVal_append, bitsVal_append, natToBits_length, natToBits_length,
    bitsVal_natToBits_of_lt _ i (List.mem_range.mp hi),
    bitsVal_natToBits_of_lt _ j (List.mem_range.mp hj)]
  omega

/-- Claim C2: ancilla-constant inference returns a boolean sequence of length
`numAncillaQubits`; all entries start `false`; with no ancilla qubits the
empty sequence is returned without scanning any gate; otherwise the gates are
scanned from the beginning in order, each gate that is a controlless
single-target X gate targeting an ancilla index toggles the entry
`target - numDataQubits`, and the first gate failing the condition ends the
scan so that no later gate affects the result. -/
theorem c2_ancilla_inference (c : QuantumComputation) :
    (inferAncillaValues c).length = c.num_ancilla_qubits ∧
    (c.num_ancilla_qubits = 0 → inferAncillaValues c = []) ∧
    (0 < c.num_ancilla_qubits →
      inferAncillaValues c =
        (c.ops.takeWhile (isAncillaInit c)).foldl (toggleStep c)
          (List.replicate c.num_ancilla_qubits false)) ∧
    (∀ g, isAncillaInit c g = true ↔
      g.type_ = OpType.x ∧ g.controls = [] ∧
        ∃ t, g.targets = [t] ∧ c.num_data_qubits ≤ t ∧
          t < c.num_data_qubits + c.num_ancilla_qubits) := by
  refine ⟨inferAncillaValues_length c, ?_, ?_, fun g => isAncillaInit_iff c g⟩
  · intro h
    unfold inferAncillaValues
    rw [if_neg (by omega), h]
    rfl
  · intro h
    unfold inferAncillaValues
    rw [if_pos h, inferScan_eq_foldl]

/-- Witness for C2 at the concrete circuit with one leading X gate on its
single ancilla qubit. -/
theorem c2_ancilla_inference_witness :
    inferAncillaValues circAncillaTrue =
      (circAncillaTrue.ops.takeWhile (isAncillaInit circAncillaTrue)).foldl
        (toggleStep circAncillaTrue)
        (List.replicate circAncillaTrue.num_ancilla_qubits false) ∧
    inferAncillaValues circAncillaTrue = [true] :=
  ⟨(c2_ancilla_inference circAncillaTrue).2.2.1 (by decide), by decide⟩

/-- Claim C6: the input-state enumeration is exactly the binary counting
sequence `0, 1, ..., 2 ^ numDataQubits - 1`, bit `i` of the counter mapped to
qubit index `i`, each state extended with the fixed inferred ancilla
constants; `numDataQubits = 0` yields exactly the one all-ancilla state. -/
theorem c6_enumeration (c : QuantumComputation) :
    enumInputStates c =
      (List.range (2 ^ c.num_data_qubits)).map
        (fun k => natToBits c.num_data_qubits k ++ inferAncillaValues c) ∧
    (enumInputStates c).length = 2 ^ c.num_data_qubits ∧
    (∀ k, k < 2 ^ c.num_data_qubits → bitsVal (natToBits c.num_data_qubits k) = k) ∧
    (∀ k i, i < c.num_data_qubits →
      (natToBits c.num_data_qubits k).getD i false = (k / 2 ^ i % 2 == 1)) ∧
    (c.num_data_qubits = 0 → enumInputStates c = [inferAncillaValues c]) := by
  refine ⟨enumInputStates_eq c, ?_, ?_, ?_, ?_⟩
  · rw [enumInputStates, List.length_map, enumDataStates_length]
  · intro k hk
    exact bitsVal_natToBits_of_lt _ k hk
  · intro k i hi
    exact natToBits_getD _ k i hi
  · intro h0
    simp [enumInputStates, enumDataStates, h0, productFT]

/-- Witness for C6 at the concrete circuit with one data qubit and inferred
ancilla constant `true`. -/
theorem c6_enumeration_witness :
    enumInputStates circAncillaTrue = [[false, true], [true, true]] ∧
    bitsVal (natToBits circAncillaTrue.num_data_qubits 1) = 1 ∧
    (natToBits circAncillaTrue.num_data_qubits 1).getD 0 false = true := by
  have h := c6_enumeration circAncillaTrue
  refine ⟨by decide, h.2.2.1 1 (by decide), ?_⟩
  have hbit := h.2.2.2.1 1 0 (by decide)
  simpa using hbit

/-- Claim C9: the table build is a deterministic function of the circuit and
of the oracle's responses on the enumerated states — two oracles agreeing
there produce bit-identical results, so repeating the build on an immutable
circuit with a deterministic oracle reproduces the same table. -/
theorem c9_deterministic (c : QuantumComputation) (o₁ o₂ : Oracle)
    (h : ∀ s ∈ enumDataStates c, o₁ s = o₂ s) :
    sim c o₁ = sim c o₂ :=
  simLoop_congr (inferAncillaValues c) (enumDataStates c) o₁ o₂ h

/-- Witness for C9: two syntactically different oracles with equal responses
on the four enumerated states give identical builds. -/
theorem c9_deterministic_witness :
    sim circNoAncilla oracleConstFF = sim circNoAncilla oracleConstFF2 :=
  c9_deterministic circNoAncilla oracleConstFF oracleConstFF2 (by decide)

/-- Claim C1: when the partition invariant holds, the oracle answers every
enumerated state with a data-qubit state of the conforming width, and the
build succeeds, the resulting table has exactly `2 ^ numDataQubits` rows of
full width `totalQubits` on both sides, the oracle is queried exactly
`2 ^ numDataQubits` times (once per enumerated state, in order), and adjacent
rows have strictly increasing numeric full-input values. -/
theorem c1_truth_table_build (c : QuantumComputation) (o : Oracle) (rows : List SimRow)
    (hpart : c.num_data_qubits ≤ c.num_qubits)
    (hconf : ∀ s ∈ enumDataStates c, ∀ out, o s = some out →
      out.length = c.num_data_qubits)
    (hok : sim c o = Except.ok rows) :
    rows.length = 2 ^ c.num_data_qubits ∧
    (∀ r ∈ rows, r.input.length = c.num_qubits ∧ r.output.length = c.num_qubits) ∧
    oracleQueries c o = enumDataStates c ∧
    (oracleQueries c o).length = 2 ^ c.num_data_qubits ∧
    rows.Chain' (fun r₁ r₂ => bitsVal r₁.input < bitsVal r₂.input) := by
  have hrows := simLoop_ok_eq o _ _ rows hok
  have hsome := simLoop_ok_isSome o _ _ rows hok
  have hinp := sim_ok_inputs c o rows hok
  have hq : oracleQueries c o = enumDataStates c := simQueries_eq_self o _ hsome
  have hpw : rows.Pairwise (fun r₁ r₂ => bitsVal r₁.input < bitsVal r₂.input) := by
    have hp := enumInputStates_pairwise c
    rw [← hinp, List.pairwise_map] at hp
    exact hp
  have hna : c.num_data_qubits + c.num_ancilla_qubits = c.num_qubits := by
    unfold QuantumComputation.num_ancilla_qubits
    omega
  refine ⟨?_, ?_, hq, ?_, hpw.chain'⟩
  · rw [hrows, List.length_map, enumDataStates_length]
  · intro r hr
    rw [hrows] at hr
    obtain ⟨s, hs, rfl⟩ := List.mem_map.mp hr
    have hslen := enumDataStates_mem_length c s hs
    have halen := inferAncillaValues_length c
    obtain ⟨out, ho⟩ := Option.isSome_iff_exists.mp (hsome s hs)
    constructor
    · simp only [List.length_append, hslen, halen]
      omega
    · simp only [List.length_append, halen, ho, Option.getD_some]
      rw [hconf s hs out ho]
      omega
  · rw [hq, enumDataStates_length]

/-- Witness for C1 at a concrete two-data-qubit circuit with a constant
oracle. -/
theorem c1_truth_table_build_witness :
    sim circNoAncilla oracleConstFF = Except.ok rowsFF ∧
    rowsFF.length = 2 ^ circNoAncilla.num_data_qubits ∧
    (∀ r ∈ rowsFF, r.input.length = circNoAncilla.num_qubits ∧
      r.output.length = circNoAncilla.num_qubits) ∧
    oracleQueries circNoAncilla oracleConstFF = enumDataStates circNoAncilla ∧
    (oracleQueries circNoAncilla oracleConstFF).length =
      2 ^ circNoAncilla.num_data_qubits ∧
    rowsFF.Chain' (fun r₁ r₂ => bitsVal r₁.input < bitsVal r₂.input) := by
  refine ⟨rfl, c1_truth_table_build circNoAncilla oracleConstFF rowsFF (by decide) ?_ rfl⟩
  intro s _ out hout
  simp only [oracleConstFF, Option.some.injEq] at hout
  subst hout
  decide

/-- Counterexample to C3 as stated: for a circuit with one data and one
ancilla qubit, the oracle's returned state for the first enumerated input is
`[false]`, while the first output row is `[false, false]` — the output row is
not the oracle's returned state used unmodified. -/
theorem c3_counterexample :
    sim circOneAncilla oracleId = Except.ok rowsOneAncilla ∧
    oracleId [false] = some [false] ∧
    (rowsOneAncilla.getD 0 ⟨[], []⟩).output ≠ [false] :=
  ⟨rfl, rfl, by decide⟩

/-- Amended C3: each output row is the oracle's returned data-qubit state
with the inferred ancilla constants appended, and each input row is the
enumerated data state with the same constants appended — so the ancilla
output positions always repeat the inferred input constants instead of an
oracle-computed value. -/
theorem c3_output_rows (c : QuantumComputation) (o : Oracle) (rows : List SimRow)
    (hok : sim c o = Except.ok rows) :
    ∀ i, i < rows.length →
      ∃ out, o ((enumDataStates c).getD i []) = some out ∧
        (rows.getD i ⟨[], []⟩).output = out ++ inferAncillaValues c ∧
        (rows.getD i ⟨[], []⟩).input =
          (enumDataStates c).getD i [] ++ inferAncillaValues c := by
  intro i hi
  have hrows := simLoop_ok_eq o _ _ rows hok
  have hsome := simLoop_ok_isSome o _ _ rows hok
  subst hrows
  rw [List.length_map] at hi
  have hsel : (enumDataStates c).getD i [] = (enumDataStates c)[i] := by
    rw [List.getD_eq_getElem?_getD, List.getElem?_eq_getElem hi]
    rfl
  have hmem : (enumDataStates c)[i] ∈ enumDataStates c := List.getElem_mem hi
  obtain ⟨out, ho⟩ := Option.isSome_iff_exists.mp (hsome _ hmem)
  have hgd : ∀ d : SimRow,
      (List.map (fun s =>
        ({ input := s ++ inferAncillaValues c,
           output := (o s).getD [] ++ inferAncillaValues c } : SimRow))
        (enumDataStates c)).getD i d =
      { input := (enumDataStates c)[i] ++ inferAncillaValues c,
        output := (o (enumDataStates c)[i]).getD [] ++ inferAncillaValues c } := by
    intro d
    rw [List.getD_eq_getElem?_getD, List.getElem?_map, List.getElem?_eq_getElem hi]
    rfl
  refine ⟨out, by rw [hsel]; exact ho, ?_, ?_⟩
  · rw [hgd]
    show (o (enumDataStates c)[i]).getD [] ++ inferAncillaValues c = _
    rw [ho, Option.getD_some]
  · rw [hgd, hsel]

/-- Witness for the amended C3 at the concrete one-ancilla circuit, row 0. -/
theorem c3_output_rows_witness :
    0 < rowsOneAncilla.length ∧
    ∃ out, oracleId ((enumDataStates circOneAncilla).getD 0 []) = some out ∧
      (rowsOneAncilla.getD 0 ⟨[], []⟩).output = out ++ inferAncillaValues circOneAncilla ∧
      (rowsOneAncilla.getD 0 ⟨[], []⟩).input =
        (enumDataStates circOneAncilla).getD 0 [] ++ inferAncillaValues circOneAncilla :=
  ⟨by decide, c3_output_rows circOneAncilla oracleId rowsOneAncilla rfl 0 (by decide)⟩

/-- Counterexample to C4 as stated: the oracle is queried with `[false]`, a
state of length `numDataQubits = 1`, not with a full state of length
`totalQubits = 2`. -/
theorem c4_counterexample :
    oracleQueries circOneAncilla oracleId = [[false], [true]] ∧
    ([false] : List Bool).length ≠ circOneAncilla.num_qubits :=
  ⟨rfl, by decide⟩

/-- Amended C4: every state passed to the oracle is the data-qubit portion of
an enumerated input state — it has length `numDataQubits`, and appending the
inferred ancilla constants to it recovers the corresponding full enumerated
input state. -/
theorem c4_oracle_inputs (c : QuantumComputation) (o : Oracle) (q : List Bool)
    (hq : q ∈ oracleQueries c o) :
    q.length = c.num_data_qubits ∧
    q ++ inferAncillaValues c ∈ enumInputStates c := by
  have hmem : q ∈ enumDataStates c := simQueries_subset o _ q hq
  exact ⟨enumDataStates_mem_length c q hmem, List.mem_map_of_mem _ hmem⟩

/-- Witness for the amended C4 at the concrete one-ancilla circuit. -/
theorem c4_oracle_inputs_witness :
    [false] ∈ oracleQueries circOneAncilla oracleId ∧
    ([false] : List Bool).length = circOneAncilla.num_data_qubits ∧
    [false] ++ inferAncillaValues circOneAncilla ∈ enumInputStates circOneAncilla := by
  have h := c4_oracle_inputs circOneAncilla oracleId [false] (by decide)
  exact ⟨by decide, h.1, h.2⟩

/-- Claim C5: when the oracle fails on an enumerated state, the whole build
returns the simulation error carrying that state — no rows are returned, the
oracle is not called on later states, and nothing is retried. -/
theorem c5_failure_aborts (c : QuantumComputation) (o : Oracle)
    (pre : List (List Bool)) (s : List Bool) (post : List (List Bool))
    (hsplit : enumDataStates c = pre ++ s :: post)
    (hpre : ∀ x ∈ pre, (o x).isSome)
    (hfail : o s = none) :
    sim c o = Except.error ⟨s⟩ ∧ oracleQueries c o = pre ++ [s] := by
  have h := simLoop_first_fail o (inferAncillaValues c) s post pre hpre hfail
  unfold sim oracleQueries
  rw [hsplit]
  exact h

/-- Witness for C5: the oracle fails on the third of four enumerated states;
the build errors with that state and the fourth state is never queried. -/
theorem c5_failure_aborts_witness :
    sim circNoAncilla oracleFailThird = Except.error ⟨[false, true]⟩ ∧
    oracleQueries circNoAncilla oracleFailThird =
      [[false, false], [true, false]] ++ [[false, true]] :=
  c5_failure_aborts circNoAncilla oracleFailThird
    [[false, false], [true, false]] [false, true] [[true, true]]
    rfl (by decide) (by decide)

/-- Counterexample to C7 as stated, at the spec's own nonzero-ancilla
scenario circuit: the inferred ancilla constant is `true` (nonzero), yet the
enumerated full input rows are already strictly increasing in numeric value
and the build returns the rows exactly in enumeration order — the sorted
order does not differ from the enumeration order and no re-sort step exists
in the build (the universal form, for every circuit, is
`enumInputStates_pairwise`). -/
theorem c7_counterexample :
    inferAncillaValues circAncillaTrue = [true] ∧
    (enumInputStates circAncillaTrue).Pairwise (fun u v => bitsVal u < bitsVal v) ∧
    sim circAncillaTrue oracleId = Except.ok
      [{ input := [false, true], output := [false, true] },
       { input := [true, true], output := [true, true] }] ∧
    bitsVal [false, true] < bitsVal [true, true] :=
  ⟨by decide, by decide, rfl, by decide⟩

/-- Amended C7: the numeric value of a full input row is the data value plus
a fixed offset, so the rows of every successful build are already in strictly
ascending full-value order exactly as enumerated; a re-sort can never change
the order, and the code performs none. -/
theorem c7_no_resort_needed (c : QuantumComputation) (o : Oracle) (rows : List SimRow)
    (hok : sim c o = Except.ok rows) :
    rows.map SimRow.input = enumInputStates c ∧
    rows.Pairwise (fun r₁ r₂ => bitsVal r₁.input < bitsVal r₂.input) := by
  have hinp := sim_ok_inputs c o rows hok
  refine ⟨hinp, ?_⟩
  have hp := enumInputStates_pairwise c
  rw [← hinp, List.pairwise_map] at hp
  exact hp

/-- Witness for the amended C7 at the concrete circuit with nonzero inferred
ancilla constants. -/
theorem c7_no_resort_needed_witness :
    (sim circAncillaTrue oracleId = Except.ok
      [{ input := [false, true], output := [false, true] },
       { input := [true, true], output := [true, true] }]) ∧
    ([{ input := [false, true], output := [false, true] },
      { input := [true, true], output := [true, true] }] : List SimRow).map SimRow.input =
      enumInputStates circAncillaTrue ∧
    ([{ input := [false, true], output := [false, true] },
      { input := [true, true], output := [true, true] }] : List SimRow).Pairwise
      (fun r₁ r₂ => bitsVal r₁.input < bitsVal r₂.input) := by
  refine ⟨rfl, ?_⟩
  exact c7_no_resort_needed circAncillaTrue oracleId _ rfl

/-- Claim C8: a leading single-target, zero-control X gate on an ancilla
qubit makes the scan continue with exactly the entry `target - numDataQubits`
toggled, every other entry unchanged; two consecutive toggles on the same
target restore the original table. -/
theorem c8_toggle_step (c : QuantumComputation) (g : QuantumOperation)
    (gs : List QuantumOperation) (a : List Bool) (t : Nat)
    (hlen : a.length = c.num_ancilla_qubits)
    (hx : g.type_ = OpType.x) (hc : g.controls = []) (ht : g.targets = [t])
    (hlo : c.num_data_qubits ≤ t)
    (hhi : t < c.num_data_qubits + c.num_ancilla_qubits) :
    inferScan c (g :: gs) a =
      inferScan c gs (toggleAt a (t - c.num_data_qubits)) ∧
    (toggleAt a (t - c.num_data_qubits)).getD (t - c.num_data_qubits) false =
      !(a.getD (t - c.num_data_qubits) false) ∧
    (∀ j, j ≠ t - c.num_data_qubits →
      (toggleAt a (t - c.num_data_qubits)).getD j false = a.getD j false) ∧
    toggleAt (toggleAt a (t - c.num_data_qubits)) (t - c.num_data_qubits) = a := by
  have hq : isAncillaInit c g = true :=
    (isAncillaInit_iff c g).mpr ⟨hx, hc, t, ht, hlo, hhi⟩
  have hidx : t - c.num_data_qubits < a.length := by omega
  refine ⟨?_, toggleAt_getD_self a _ hidx,
    fun j hj => toggleAt_getD_ne a _ j (Ne.symm hj), toggleAt_toggleAt a _ hidx⟩
  simp only [inferScan, hq, if_true, toggleStep, ht, List.headD_cons]

/-- Witness for C8 at the concrete one-ancilla circuit and its X gate. -/
theorem c8_toggle_step_witness :
    inferScan circAncillaTrue [gateXOne] [false] =
      inferScan circAncillaTrue [] (toggleAt [false] 0) ∧
    (toggleAt [false] 0).getD 0 false = !([false].getD 0 false) ∧
    toggleAt (toggleAt [false] 0) 0 = [false] := by
  have h := c8_toggle_step circAncillaTrue gateXOne [] [false] 1
    (by decide) rfl rfl rfl (by decide) (by decide)
  exact ⟨h.1, h.2.1, h.2.2.2⟩

/-- Claim C10: the table widget is repopulated only after every simulation
succeeded; if the oracle fails on any enumerated state the previously
displayed table state is left completely unchanged. -/
theorem c10_table_atomicity (c : QuantumComputation) (o : Oracle) :
    (∀ t, (∃ s ∈ enumDataStates c, o s = none) → simUI c o t = t) ∧
    (∀ t rows, sim c o = Except.ok rows → simUI c o t = renderTable c rows) := by
  constructor
  · intro t hfail
    obtain ⟨e, he⟩ := simLoop_error_of_fail o (inferAncillaValues c) _ hfail
    unfold simUI sim
    rw [he]
  · intro t rows hok
    unfold simUI
    rw [hok]

/-- Witness for C10: a failing build leaves the stale table untouched, while
a succeeding build replaces it with the rendered rows. -/
theorem c10_table_atomicity_witness :
    simUI circNoAncilla oracleFailThird staleTable = staleTable ∧
    simUI circNoAncilla oracleConstFF staleTable = renderTable circNoAncilla rowsFF := by
  constructor
  · exact (c10_table_atomicity circNoAncilla oracleFailThird).1 staleTable
      ⟨[false, true], by decide, by decide⟩
  · exact (c10_table_atomicity circNoAncilla oracleConstFF).2 staleTable rowsFF rfl

end Syrec
